import Mathlib

/-!
Verification development for the Sundial execution core
(`src/rt/mod.rs`, with `src/heap.rs` + `src/reduce.rs` as the earlier
"Eq" evolution of the same design).

The Rust code is shallowly embedded:
* the heap-resident term graph of `src/rt/mod.rs` is embedded twice:
  - a term-level model (`RT`): during a reduction the heap is append-only
    and nodes are immutable, so every `Gc` pointer denotes a fixed term
    value; pointers are replaced by the terms themselves and
    `Heap::new_sequence` becomes a smart constructor.  Equality of reduce
    results is structural equality of these term values.
  - a slot-level model (`RTHeap`) of `Heap` itself (slots, generation
    stamps, mark/sweep) for the pointer-validity and GC claims.
* `Result<T>` becomes `Except Error T`; machine integers index lists, so
  `usize`/`u64` become `Nat`.
* Rust `Vec`s are modelled as Lean lists in the same order (index 0 first,
  push/pop at the end), except where noted.
-/

set_option maxHeartbeats 1000000

/-- `Error` from `src/rt/mod.rs` (the `Syntax` variant is named
`synError` because `syntax` is a Lean keyword). -/
inductive Error where
  | time
  | space
  | tag
  | stub
  | bug
  | null
  | assert
  | synError
  | underflow
  | home
deriving DecidableEq, Repr

namespace RT

/-- `Opcode` from `src/rt/mod.rs` (`Prop`/`Forall` are named
`prop`/`forAll`; `Prop` and `forall` are reserved in Lean). -/
inductive Opcode where
  | app
  | box
  | cat
  | copy
  | drop
  | swap
  | prop
  | forAll
deriving DecidableEq, Repr

/-- `Object` from `src/rt/mod.rs`, with `Gc` pointers replaced by the
terms they denote.  `Rc<str>` payloads become `String`. -/
inductive Object where
  | id
  | opcode (op : Opcode)
  | word (value : String)
  | hint (value : String)
  | block (body : Object)
  | sequence (fst snd : Object)
deriving DecidableEq, Repr

/-- `Object::is_id`. -/
def is_id : Object → Bool
  | .id => true
  | _ => false

/-- `Object::is_opcode`. -/
def is_opcode : Object → Bool
  | .opcode _ => true
  | _ => false

/-- `Object::is_word`. -/
def is_word : Object → Bool
  | .word _ => true
  | _ => false

/-- `Object::is_hint`. -/
def is_hint : Object → Bool
  | .hint _ => true
  | _ => false

/-- `Object::is_block`. -/
def is_block : Object → Bool
  | .block _ => true
  | _ => false

/-- `Object::is_sequence`. -/
def is_sequence : Object → Bool
  | .sequence _ _ => true
  | _ => false

/-- `Heap::new_sequence` from `src/rt/mod.rs`: the normalizing sequence
constructor.  An `Id` first component yields the second component; a
`Sequence` first component is re-associated to the right.  (Allocation
cannot fail in the term model, so the `Space` error disappears.) -/
def new_sequence : Object → Object → Object
  | .id, snd => snd
  | .sequence fst_fst fst_snd, snd => new_sequence fst_fst (new_sequence fst_snd snd)
  | fst, snd => .sequence fst snd

/-- `Heap::get_block_body` (term level): `Tag` error on a non-block. -/
def get_block_body : Object → Except Error Object
  | .block body => .ok body
  | _ => .error .tag

/-- Node count of a term, the measure for continuation flattening. -/
def Object.size : Object → Nat
  | .id | .opcode _ | .word _ | .hint _ => 1
  | .block body => body.size + 1
  | .sequence fst snd => fst.size + snd.size + 1

theorem Object.size_pos (o : Object) : 0 < o.size := by
  cases o <;> simp [Object.size]

/-- Total size of a continuation segment. -/
def con_size (l : List Object) : Nat := (l.map Object.size).sum

/-- `Frame` from `src/rt/mod.rs`.  `con` is a `VecDeque` with the front
at the head of the list; `env` and `err` are `Vec`s in `Vec` order
(index 0 at the head, push/pop at the end of the list). -/
structure Frame where
  con : List Object
  env : List Object
  err : List Object
deriving DecidableEq, Repr

/-- `Frame::new`. -/
def Frame.new (root : Object) : Frame := { con := [root], env := [], err := [] }

/-- `Thread::with_continuation` (the `Thread` wrapper adds nothing to
`Frame`, so the model works on `Frame` directly). -/
def with_continuation (continuation : Object) : Frame := Frame.new continuation

/-- `Thread::has_continuation`. -/
def has_continuation (f : Frame) : Bool := !f.con.isEmpty

/-- `Thread::get_continuation`: flush the continuation to a term.
The source starts from a fresh `Id` and, iterating the deque FRONT TO
BACK, prepends each element with `new_sequence` — so the result lists
the continuation back-to-front. -/
def get_continuation_term (f : Frame) : Object :=
  f.con.foldl (fun xs object => new_sequence object xs) .id

/-- `Thread::push_continuation_front`. -/
def push_continuation_front (f : Frame) (data : Object) : Frame :=
  { f with con := data :: f.con }

/-- The flattening loop inside `Thread::pop_continuation`: while the
popped item is a `Sequence`, push its right child then its left child
back onto the front, so the left child is examined next.  (The Rust
loop pushes `snd` then `fst` and immediately pops `fst` again; popping
`fst` directly is the same computation, structurally recursive.) -/
def pop_head : Object → List Object → Object × List Object
  | .sequence fst snd, rest => pop_head fst (snd :: rest)
  | code, rest => (code, rest)

/-- `Thread::pop_continuation`: pop the front of the continuation,
flattening `Sequence` nodes; `Bug` only when the continuation is empty
(mid-flatten the deque is never empty: each unfolding pushes two items
before popping one). -/
def pop_continuation : List Object → Except Error (Object × List Object)
  | [] => .error .bug
  | code :: rest => .ok (pop_head code rest)

/-- `Thread::is_monadic`. -/
def is_monadic (f : Frame) : Bool := decide (1 ≤ f.env.length)

/-- `Thread::is_dyadic`. -/
def is_dyadic (f : Frame) : Bool := decide (2 ≤ f.env.length)

/-- Build `new_sequence xs[0] (new_sequence xs[1] (... tail))`. -/
def seq_chain (xs : List Object) (tail : Object) : Object :=
  xs.foldr (fun object acc => new_sequence object acc) tail

/-- `Thread::get_environment`: flush `env` (in push order, via
`.iter().rev()` plus prepending) and then prepend the `err` (thunk)
list, also in its own order.  The thunk list therefore ends up BEFORE
the environment in the resulting term. -/
def get_environment_term (f : Frame) : Object :=
  seq_chain f.err (seq_chain f.env .id)

/-- `Thread::push_environment` (push at the `Vec` end). -/
def push_environment (f : Frame) (data : Object) : Frame :=
  { f with env := f.env ++ [data] }

/-- `Thread::pop_environment` (pop from the `Vec` end). -/
def pop_environment (f : Frame) : Except Error (Object × Frame) :=
  match f.env.getLast? with
  | some data => .ok (data, { f with env := f.env.dropLast })
  | none => .error .underflow

/-- `Thread::peek_environment`. -/
def peek_environment (f : Frame) : Except Error Object :=
  match f.env.getLast? with
  | some data => .ok data
  | none => .error .underflow

/-- `Thread::thunk`: move the whole environment onto the thunk list,
then the stuck instruction itself. -/
def thunk (f : Frame) (root : Object) : Frame :=
  { f with env := [], err := f.err ++ f.env ++ [root] }

/-- The dispatch on the popped instruction inside `Thread::step` from
`src/rt/mod.rs` (factored out of `step` for the proofs; `f` already has
the instruction removed from its continuation). -/
def exec (tab : String → Option Object) (code : Object) (f : Frame) : Except Error Frame :=
  match code with
    | .block _ => .ok (push_environment f code)
    | .opcode op =>
      match op with
      | .app =>
        if !is_monadic f then .ok (thunk f code) else
        match pop_environment f with
        | .error e => .error e
        | .ok (source, f) =>
          match get_block_body source with
          | .error e => .error e
          | .ok target => .ok (push_continuation_front f target)
      | .box =>
        if !is_monadic f then .ok (thunk f code) else
        match pop_environment f with
        | .error e => .error e
        | .ok (source, f) => .ok (push_environment f (.block source))
      | .cat =>
        if !is_dyadic f then .ok (thunk f code) else
        match pop_environment f with
        | .error e => .error e
        | .ok (rhs, f) =>
          match pop_environment f with
          | .error e => .error e
          | .ok (lhs, f) =>
            match get_block_body rhs with
            | .error e => .error e
            | .ok rhs_body =>
              match get_block_body lhs with
              | .error e => .error e
              | .ok lhs_body =>
                .ok (push_environment f (.block (new_sequence lhs_body rhs_body)))
      | .copy =>
        if !is_monadic f then .ok (thunk f code) else
        match peek_environment f with
        | .error e => .error e
        | .ok source => .ok (push_environment f source)
      | .drop =>
        if !is_monadic f then .ok (thunk f code) else
        match pop_environment f with
        | .error e => .error e
        | .ok (_, f) => .ok f
      | .swap =>
        if !is_dyadic f then .ok (thunk f code) else
        match pop_environment f with
        | .error e => .error e
        | .ok (fst, f) =>
          match pop_environment f with
          | .error e => .error e
          | .ok (snd, f) => .ok (push_environment (push_environment f fst) snd)
      | .prop | .forAll => .ok (thunk f code)
    | .word value =>
      match tab value with
      | some binding => .ok (push_continuation_front f binding)
      | none => .ok (thunk f code)
    | .id | .hint _ => .ok f
    | .sequence _ _ => .error .bug

/-- `Thread::step` from `src/rt/mod.rs`: pop (and flatten) the front of
the continuation, then dispatch.  The binding table (`tab : Library`)
is modelled as a lookup function. -/
def step (tab : String → Option Object) (f : Frame) : Except Error Frame :=
  match pop_continuation f.con with
  | .error e => .error e
  | .ok (code, con) => exec tab code { f with con := con }

/-- First half of the token preprocessing of `parse`:
`src.replace("[", "[ ")`. -/
def replace_open : List Char → List Char
  | [] => []
  | '[' :: rest => '[' :: ' ' :: replace_open rest
  | c :: rest => c :: replace_open rest

/-- Second half of the token preprocessing of `parse`:
`src.replace("]", " ]")`. -/
def replace_close : List Char → List Char
  | [] => []
  | ']' :: rest => ' ' :: ']' :: replace_close rest
  | c :: rest => c :: replace_close rest

/-- `str::split_whitespace`: maximal runs of non-whitespace characters,
empty tokens discarded.  `cur` holds the current run, reversed. -/
def split_ws : List Char → List Char → List String
  | [], cur => if cur.isEmpty then [] else [String.mk cur.reverse]
  | c :: rest, cur =>
    if c.isWhitespace then
      if cur.isEmpty then split_ws rest [] else String.mk cur.reverse :: split_ws rest []
    else
      split_ws rest (c :: cur)

/-- The tokenization performed by `parse` in `src/rt/mod.rs`. -/
def tokenize (src : String) : List String :=
  split_ws (replace_close (replace_open src.toList)) []

/-- A character of `WORD_PATTERN` (`[a-z0-9-]`). -/
def is_word_char (c : Char) : Bool :=
  ('a' ≤ c && c ≤ 'z') || ('0' ≤ c && c ≤ '9') || c = '-'

/-- `HINT_REGEX` (a parenthesized `WORD_PATTERN`, anchored): returns the
captured name when the whole token is a parenthesized word. -/
def hint_name (w : String) : Option String :=
  match w.toList with
  | '(' :: rest =>
    if rest.getLast? = some ')' then
      let inner := rest.dropLast
      if !inner.isEmpty && inner.all is_word_char then some (String.mk inner) else none
    else none
  | _ => none

/-- One iteration of the token loop of `parse`: the state is the
current `build` list plus the `stack` of suspended builds. -/
def parse_token (st : List Object × List (List Object)) (w : String) :
    Except Error (List Object × List (List Object)) :=
  let (build, stack) := st
  if w = "[" then
    .ok ([], build :: stack)
  else if w = "]" then
    match stack with
    | [] => .error .synError
    | prev :: stack =>
      .ok (prev ++ [.block (seq_chain build .id)], stack)
  else if w = "a" then .ok (build ++ [.opcode .app], stack)
  else if w = "b" then .ok (build ++ [.opcode .box], stack)
  else if w = "c" then .ok (build ++ [.opcode .cat], stack)
  else if w = "d" then .ok (build ++ [.opcode .copy], stack)
  else if w = "e" then .ok (build ++ [.opcode .drop], stack)
  else if w = "f" then .ok (build ++ [.opcode .swap], stack)
  else if w = "g" then .ok (build ++ [.opcode .forAll], stack)
  else if w = "h" then .ok (build ++ [.opcode .prop], stack)
  else if w.length = 1 && w.toList.all Char.isLower then
    -- a single lowercase letter that is not an opcode is a syntax error
    .error .synError
  else
    match hint_name w with
    | some name => .ok (build ++ [.hint name], stack)
    | none => .ok (build ++ [.word w], stack)

/-- The token-list part of `parse` from `src/rt/mod.rs` (everything
after tokenization). -/
def parse_tokens (words : List String) : Except Error Object :=
  match words.foldlM parse_token ([], []) with
  | .error e => .error e
  | .ok (build, stack) =>
    if !stack.isEmpty then .error .synError
    else .ok (seq_chain build .id)

/-- `parse` from `src/rt/mod.rs`. -/
def parse (src : String) : Except Error Object :=
  parse_tokens (tokenize src)

/-- The opcode letters written by `quote`. -/
def quote_opcode : Opcode → String
  | .app => "a"
  | .box => "b"
  | .cat => "c"
  | .copy => "d"
  | .drop => "e"
  | .swap => "f"
  | .forAll => "g"
  | .prop => "h"

/-- `quote` from `src/rt/mod.rs`: render a term back to text.  A
trailing `Id` in a sequence is omitted. -/
def quote : Object → String
  | .id => ""
  | .opcode op => quote_opcode op
  | .word value => value
  | .hint value => "(" ++ value ++ ")"
  | .block body => "[" ++ quote body ++ "]"
  | .sequence fst snd =>
    quote fst ++ (match snd with
      | .id => ""
      | _ => " " ++ quote snd)

/-- The `while time_quota > 0 && thread.has_continuation()` loop of
`reduce`. -/
def reduce_loop (tab : String → Option Object) : Nat → Frame → Except Error Frame
  | 0, f => .ok f
  | time + 1, f =>
    if f.con = [] then .ok f
    else
      match step tab f with
      | .error e => .error e
      | .ok f' => reduce_loop tab time f'

/-- `reduce` from `src/rt/mod.rs`: run `step` under a fuel budget, then
flush.  With a non-empty continuation the result is
`new_sequence (flushed environment) (flushed continuation)`; otherwise
just the flushed environment (which carries the thunk list first). -/
def reduce (tab : String → Option Object) (continuation : Object)
    (time_quota : Nat) : Except Error Object :=
  match reduce_loop tab time_quota (with_continuation continuation) with
  | .error e => .error e
  | .ok f =>
    if f.con = [] then
      .ok (get_environment_term f)
    else
      .ok (new_sequence (get_environment_term f) (get_continuation_term f))

/-- A term whose top-level spine is a normalized, `Id`-terminated chain:
the shape of every term `parse` or `reduce` produces (each spine element
is neither `Id` nor a `Sequence`, and the spine ends in `Id`). -/
def is_chain : Object → Bool
  | .id => true
  | .sequence fst snd => !is_sequence fst && !is_id fst && is_chain snd
  | _ => false

/-- Every `Sequence` node anywhere in the term has a first component
that is neither `Id` nor a `Sequence` — the invariant `new_sequence`
maintains for every sequence it allocates. -/
def normal : Object → Bool
  | .id => true
  | .opcode _ => true
  | .word _ => true
  | .hint _ => true
  | .block body => normal body
  | .sequence fst snd => !is_sequence fst && !is_id fst && normal fst && normal snd

/-- The condition under which `Thread::step` thunks an opcode instead of
executing its rule: the rule needs more operands than the environment
holds (`Prop`/`Forall` have no rule and always thunk). -/
def stuck_without (op : Opcode) (env_len : Nat) : Bool :=
  match op with
  | .app | .box | .copy | .drop => decide (env_len < 1)
  | .cat | .swap => decide (env_len < 2)
  | .prop | .forAll => true

/-- Every value on the environment stack is a block. -/
def env_blocks (f : Frame) : Bool := f.env.all is_block

end RT

namespace RTHeap

/-- `Gc` from `src/rt/mod.rs`: a (slot index, generation stamp) pair. -/
structure Gc where
  index : Nat
  generation : Nat
deriving DecidableEq, Repr

/-- `Object` from `src/rt/mod.rs` at the slot level: children are `Gc`
pointers into the heap. -/
inductive Object where
  | id
  | opcode (op : RT.Opcode)
  | word (value : String)
  | hint (value : String)
  | block (body : Gc)
  | sequence (fst snd : Gc)
deriving DecidableEq, Repr

/-- `Node` from `src/rt/mod.rs`. -/
structure Node where
  object : Object
  generation : Nat
  is_visible : Bool
deriving DecidableEq, Repr

/-- `Heap` from `src/rt/mod.rs`: a fixed table of optional nodes plus
the current generation counter. -/
structure Heap where
  nodes : List (Option Node)
  generation : Nat
deriving DecidableEq, Repr

/-- The slot at index `i` (`self.nodes[i]`; an out-of-range index, a
panic in Rust, reads as an empty slot here — every pointer issued by
`put` is in range). -/
def nodeAt (h : Heap) (i : Nat) : Option Node := h.nodes.getD i none

/-- `Heap::with_capacity`. -/
def with_capacity (capacity : Nat) : Heap :=
  { nodes := List.replicate capacity none, generation := 0 }

/-- The index used by `Heap::put`: the first free slot. -/
def first_free : List (Option Node) → Option Nat
  | [] => none
  | none :: _ => some 0
  | some _ :: rest => (first_free rest).map (· + 1)

/-- `Heap::put`: first-fit allocation; the node and the returned pointer
are stamped with the heap's current generation.  `Space` when no slot is
free. -/
def put (h : Heap) (object : Object) : Except Error (Gc × Heap) :=
  match first_free h.nodes with
  | some index =>
    .ok (⟨index, h.generation⟩,
      { h with nodes := h.nodes.set index (some ⟨object, h.generation, false⟩) })
  | none => .error .space

/-- `Heap::get_ref`: `Null` when the slot is empty or the stamps
disagree. -/
def get_ref (h : Heap) (p : Gc) : Except Error Object :=
  match nodeAt h p.index with
  | some node =>
    if node.generation = p.generation then .ok node.object else .error .null
  | none => .error .null

/-- `Heap::is_id`. -/
def is_id (h : Heap) (p : Gc) : Except Error Bool :=
  match get_ref h p with
  | .ok (.id) => .ok true
  | .ok _ => .ok false
  | .error e => .error e

/-- `Heap::is_opcode`. -/
def is_opcode (h : Heap) (p : Gc) : Except Error Bool :=
  match get_ref h p with
  | .ok (.opcode _) => .ok true
  | .ok _ => .ok false
  | .error e => .error e

/-- `Heap::is_word`. -/
def is_word (h : Heap) (p : Gc) : Except Error Bool :=
  match get_ref h p with
  | .ok (.word _) => .ok true
  | .ok _ => .ok false
  | .error e => .error e

/-- `Heap::is_hint`. -/
def is_hint (h : Heap) (p : Gc) : Except Error Bool :=
  match get_ref h p with
  | .ok (.hint _) => .ok true
  | .ok _ => .ok false
  | .error e => .error e

/-- `Heap::is_block`. -/
def is_block (h : Heap) (p : Gc) : Except Error Bool :=
  match get_ref h p with
  | .ok (.block _) => .ok true
  | .ok _ => .ok false
  | .error e => .error e

/-- `Heap::is_sequence`. -/
def is_sequence (h : Heap) (p : Gc) : Except Error Bool :=
  match get_ref h p with
  | .ok (.sequence _ _) => .ok true
  | .ok _ => .ok false
  | .error e => .error e

/-- `Heap::get_opcode`. -/
def get_opcode (h : Heap) (p : Gc) : Except Error RT.Opcode :=
  match get_ref h p with
  | .ok (.opcode value) => .ok value
  | .ok _ => .error .tag
  | .error e => .error e

/-- `Heap::get_word`. -/
def get_word (h : Heap) (p : Gc) : Except Error String :=
  match get_ref h p with
  | .ok (.word value) => .ok value
  | .ok _ => .error .tag
  | .error e => .error e

/-- `Heap::get_hint`. -/
def get_hint (h : Heap) (p : Gc) : Except Error String :=
  match get_ref h p with
  | .ok (.hint value) => .ok value
  | .ok _ => .error .tag
  | .error e => .error e

/-- `Heap::get_block_body`. -/
def get_block_body (h : Heap) (p : Gc) : Except Error Gc :=
  match get_ref h p with
  | .ok (.block body) => .ok body
  | .ok _ => .error .tag
  | .error e => .error e

/-- `Heap::get_sequence_fst`. -/
def get_sequence_fst (h : Heap) (p : Gc) : Except Error Gc :=
  match get_ref h p with
  | .ok (.sequence fst _) => .ok fst
  | .ok _ => .error .tag
  | .error e => .error e

/-- `Heap::get_sequence_snd`. -/
def get_sequence_snd (h : Heap) (p : Gc) : Except Error Gc :=
  match get_ref h p with
  | .ok (.sequence _ snd) => .ok snd
  | .ok _ => .error .tag
  | .error e => .error e

/-- The flag write inside `Heap::mark` (`node.is_visible = true`):
slot `i`, currently holding `node`, is overwritten with the same node
visited. -/
def set_visible (h : Heap) (i : Nat) (node : Node) : Heap :=
  { h with nodes := h.nodes.set i (some { node with is_visible := true }) }

/-- `Heap::mark` from `src/rt/mod.rs`: set the visited flag of the root
and recurse into block bodies and both sequence children; `Null` on a
stale pointer.  The source uses native recursion (terminating because
the creation order of immutable nodes makes the heap acyclic); the model
adds an explicit fuel argument, and every statement about `mark` is
conditional on the recursion having completed (`.ok`). -/
def mark (fuel : Nat) (h : Heap) (root : Gc) : Except Error Heap :=
  match fuel with
  | 0 => .error .bug
  | fuel + 1 =>
    match nodeAt h root.index with
    | none => .error .null
    | some node =>
      if node.generation ≠ root.generation then .error .null
      else
        match node.object with
        | .block body => mark fuel (set_visible h root.index node) body
        | .sequence fst snd =>
          match mark fuel (set_visible h root.index node) fst with
          | .ok h2 => mark fuel h2 snd
          | .error e => .error e
        | _ => .ok (set_visible h root.index node)

/-- `mark` called once per external root (the session layer's loop over
`tab.values()` in `Pod::eval`). -/
def mark_all (fuel : Nat) (h : Heap) : List Gc → Except Error Heap
  | [] => .ok h
  | root :: roots =>
    match mark fuel h root with
    | .ok h' => mark_all fuel h' roots
    | .error e => .error e

/-- The per-slot action of `Heap::sweep`: an occupied visited slot is
kept with its flag cleared; an occupied unvisited slot is freed. -/
def sweep_node : Option Node → Option Node
  | some node => if node.is_visible then some { node with is_visible := false } else none
  | none => none

/-- `Heap::sweep` from `src/rt/mod.rs`: one pass over all slots, then
the generation counter increments.  (The source always returns `Ok` and
also prints a log line; modelled as a pure function.) -/
def sweep (h : Heap) : Heap :=
  { nodes := h.nodes.map sweep_node, generation := h.generation + 1 }

/-- The object a pointer currently denotes, if it is valid. -/
def object_at (h : Heap) (p : Gc) : Option Object :=
  match nodeAt h p.index with
  | some node => if node.generation = p.generation then some node.object else none
  | none => none

/-- The visited flag of slot `i`. -/
def visible_at (h : Heap) (i : Nat) : Bool :=
  match nodeAt h i with
  | some node => node.is_visible
  | none => false

/-- Slot `i` is occupied. -/
def occupied (h : Heap) (i : Nat) : Bool := (nodeAt h i).isSome

/-- All visited flags are clear — the state of the heap between GC
cycles (`put` creates nodes unvisited and `sweep` clears every survivor
flag). -/
def clean_flags (h : Heap) : Bool :=
  h.nodes.all (fun slot =>
    match slot with
    | some node => !node.is_visible
    | none => true)

/-- GC reachability: a declared root, plus recursively the body of every
reachable block and both children of every reachable sequence. -/
inductive Reach (h : Heap) : Gc → Gc → Prop
  | refl (r : Gc) : Reach h r r
  | block {r b p : Gc} : object_at h r = some (.block b) → Reach h b p → Reach h r p
  | seq_fst {r a b p : Gc} : object_at h r = some (.sequence a b) → Reach h a p → Reach h r p
  | seq_snd {r a b p : Gc} : object_at h r = some (.sequence a b) → Reach h b p → Reach h r p

/-- The heap mutations available to the owner of a heap. -/
inductive HeapOp where
  | put (object : Object)
  | sweep
  | mark (fuel : Nat) (root : Gc)
deriving Repr

/-- Run one heap operation (a failed `put` or `mark` leaves the heap
unchanged). -/
def heap_step (h : Heap) : HeapOp → Heap
  | .put object =>
    match put h object with
    | .ok (_, h') => h'
    | .error _ => h
  | .sweep => sweep h
  | .mark fuel root =>
    match mark fuel h root with
    | .ok h' => h'
    | .error _ => h

/-- Run a sequence of heap operations. -/
def run_ops (h : Heap) (ops : List HeapOp) : Heap := ops.foldl heap_step h

/-- A pointer that can never again be dereferenced: its stamp is below
the heap's generation counter and its slot, if occupied, carries a
different stamp. -/
def stale (h : Heap) (p : Gc) : Prop :=
  p.generation < h.generation ∧
  ∀ node, nodeAt h p.index = some node → node.generation ≠ p.generation

end RTHeap

namespace EqCore

/-- Modelled from the spec: `src/reduce.rs` dispatches on `heap.is_fix`,
but the `Function` enum in `src/heap.rs` has no `Fix` variant (the two
files are different snapshots of the same design, and the heap that
`reduce.rs` compiled against is not under `src/`).  This is `Function`
from `src/heap.rs` extended with the `fix` instruction required by the
spec's primitive table (§4.2) and present as `Bit::Fix` in
`src/v1/run.rs`. -/
inductive Function where
  | apply
  | bind
  | copy
  | drop
  | fix
  | shift
  | reset
deriving DecidableEq, Repr

/-- `Object` from `src/heap.rs` with pointers replaced by term values
(justified as in `RT`: `reduce` never sweeps, so the heap is append-only
for its duration).  The `Number(f64)` payload is modelled as `Int`; no
claim depends on numeric values.  Note that `Heap::new_sequence` in
`src/heap.rs` is a plain constructor — unlike `src/rt/mod.rs` it does
not normalize — so it is the raw `sequence` constructor here. -/
inductive Object where
  | id
  | number (value : Int)
  | word (value : String)
  | function (fn : Function)
  | block (body : Object)
  | sequence (head tail : Object)
deriving DecidableEq, Repr

/-- `Heap::is_number` (term level). -/
def is_number : Object → Bool
  | .number _ => true
  | _ => false

/-- `Heap::is_block` (term level). -/
def is_block : Object → Bool
  | .block _ => true
  | _ => false

/-- `Heap::is_apply` (term level). -/
def is_apply : Object → Bool
  | .function .apply => true
  | _ => false

/-- `Heap::is_bind` (term level). -/
def is_bind : Object → Bool
  | .function .bind => true
  | _ => false

/-- `Heap::is_copy` (term level). -/
def is_copy : Object → Bool
  | .function .copy => true
  | _ => false

/-- `Heap::is_drop` (term level). -/
def is_drop : Object → Bool
  | .function .drop => true
  | _ => false

/-- Modelled from the spec: `heap.is_fix`, the predicate `src/reduce.rs`
uses but `src/heap.rs` lacks; mechanical sibling of the other `is_*`
predicates. -/
def is_fix : Object → Bool
  | .function .fix => true
  | _ => false

/-- `Heap::is_shift` (term level). -/
def is_shift : Object → Bool
  | .function .shift => true
  | _ => false

/-- `Heap::is_reset` (term level). -/
def is_reset : Object → Bool
  | .function .reset => true
  | _ => false

/-- `Heap::is_id` (term level). -/
def is_id : Object → Bool
  | .id => true
  | _ => false

/-- `Heap::get_block_body` (term level). -/
def get_block_body : Object → Except Error Object
  | .block body => .ok body
  | _ => .error .tag

/-- Node count, the measure for `fetch`/`jump` termination. -/
def Object.size : Object → Nat
  | .id | .number _ | .word _ | .function _ => 1
  | .block body => body.size + 1
  | .sequence head tail => head.size + tail.size + 1

/-- Total size of a code stack. -/
def code_size (l : List Object) : Nat := (l.map Object.size).sum

/-- The flattening loop inside `fetch`: while the popped object is a
`Sequence`, push its tail then its head back onto the stack, so the
head is examined next.  (The Rust loop pushes `tail` then `head` and
immediately pops `head` again; examining `head` directly is the same
computation, structurally recursive.) -/
def fetch_head : Object → List Object → Object × List Object
  | .sequence head tail, rest => fetch_head head (tail :: rest)
  | object, rest => (object, rest)

/-- `fetch` from `src/reduce.rs`: pop the next instruction off the code
stack, flattening sequences; `Bug` only on an empty stack.  The Rust
`code` is a `Vec` used as a stack (push/pop at the end); the model
keeps the stack top at the HEAD of the list. -/
def fetch : List Object → Except Error (Object × List Object)
  | [] => .error .bug
  | object :: rest => .ok (fetch_head object rest)

theorem fetch_head_size_lt (object : Object) :
    ∀ rest : List Object,
      code_size (fetch_head object rest).2 < Object.size object + code_size rest := by
  induction object with
  | sequence head tail ih_head _ =>
    intro rest
    have := ih_head (tail :: rest)
    simp only [fetch_head]
    simp [code_size, Object.size] at this ⊢
    omega
  | id => intro rest; simp [fetch_head, Object.size]
  | number v => intro rest; simp [fetch_head, Object.size]
  | word v => intro rest; simp [fetch_head, Object.size]
  | function fn => intro rest; simp [fetch_head, Object.size]
  | block body _ => intro rest; simp [fetch_head, Object.size]

theorem fetch_size_lt (code : List Object) (object : Object) (code' : List Object)
    (hf : fetch code = .ok (object, code')) : code_size code' < code_size code := by
  cases code with
  | nil => simp [fetch] at hf
  | cons x rest =>
    have hx := fetch_head_size_lt x rest
    simp only [fetch] at hf
    injection hf with h
    have h2 : (fetch_head x rest).2 = code' := congrArg Prod.snd h
    rw [h2] at hx
    simp only [code_size, List.map_cons, List.sum_cons] at hx ⊢
    omega

/-- `jump` from `src/reduce.rs`: fetch until the next `Reset`, push the
reset back onto the code, and return the collected prefix wrapped in a
block together with the remaining code.  `buf` holds the fetched
objects, most recent first (the Rust `buf` is in push order and flushed
via `.iter().rev()`; folding this reversed accumulator front-to-back
builds the same chain). -/
def jump_aux (code : List Object) (buf : List Object) :
    Except Error (Object × List Object) :=
  match hf : fetch code with
  | .error e => .error e
  | .ok (object, code') =>
    if is_reset object then
      .ok (.block (buf.foldl (fun xs object => .sequence object xs) .id), object :: code')
    else
      jump_aux code' (object :: buf)
termination_by code_size code
decreasing_by exact fetch_size_lt code _ _ hf

/-- `jump` proper (started with an empty buffer). -/
def jump (code : List Object) : Except Error (Object × List Object) :=
  jump_aux code []

/-- `freeze` from `src/reduce.rs`: the stuck instruction and the whole
data stack become dead code on `kill`, in original order.  `data` and
`kill` are Rust `Vec`s modelled in `Vec` order (index 0 at the head,
push at the end). -/
def freeze (code : Object) (data kill : List Object) : List Object × List Object :=
  ([], kill ++ data ++ [code])

/-- The body of the `while` loop of `reduce` in `src/reduce.rs` (one
fetch-and-dispatch step on the `(code, data, kill)` state). -/
def step_eq (code data kill : List Object) :
    Except Error (List Object × List Object × List Object) :=
  match fetch code with
  | .error e => .error e
  | .ok (object, code) =>
    if is_number object then .ok (code, data ++ [object], kill)
    else if is_block object then .ok (code, data ++ [object], kill)
    else if is_apply object then
      -- [A][B]a = B[A]
      if data.length < 2 then
        let (data', kill') := freeze object data kill
        .ok (code, data', kill')
      else
        match (data.getLast?, data.dropLast.getLast?) with
        | (some func, some hide) =>
          let data := data.dropLast.dropLast
          if !is_block func then .error .assert
          else
            match get_block_body func with
            | .error e => .error e
            | .ok func_body => .ok (func_body :: hide :: code, data, kill)
        | _ => .error .underflow
    else if is_bind object then
      -- [A][B]b = [[A]B]
      if data.length < 2 then
        let (data', kill') := freeze object data kill
        .ok (code, data', kill')
      else
        match (data.getLast?, data.dropLast.getLast?) with
        | (some func, some show_) =>
          let data := data.dropLast.dropLast
          if !is_block func then .error .assert
          else
            match get_block_body func with
            | .error e => .error e
            | .ok func_body =>
              .ok (code, data ++ [.block (.sequence show_ func_body)], kill)
        | _ => .error .underflow
    else if is_copy object then
      -- [A]c = [A] [A]
      if data.isEmpty then
        let (data', kill') := freeze object data kill
        .ok (code, data', kill')
      else
        match data.getLast? with
        | some copy => .ok (code, data ++ [copy], kill)
        | none => .error .underflow
    else if is_drop object then
      -- [A] d =
      if data.isEmpty then
        let (data', kill') := freeze object data kill
        .ok (code, data', kill')
      else
        match data.getLast? with
        | some _ => .ok (code, data.dropLast, kill)
        | none => .error .underflow
    else if is_fix object then
      -- [A]f = [[A]fA]
      if data.isEmpty then
        let (data', kill') := freeze object data kill
        .ok (code, data', kill')
      else
        match data.getLast? with
        | some blk =>
          let data := data.dropLast
          match get_block_body blk with
          | .error e => .error e
          | .ok block_body =>
            .ok (code, data ++ [.block (.sequence (.sequence blk object) block_body)], kill)
        | none => .error .underflow
    else if is_shift object then
      -- [A]sBr = [B]Ar
      if data.isEmpty then
        let (data', kill') := freeze object data kill
        .ok (code, data', kill')
      else
        match data.getLast? with
        | some callback =>
          let data := data.dropLast
          match get_block_body callback with
          | .error e => .error e
          | .ok callback_body =>
            match jump code with
            | .error e => .error e
            | .ok (continuation, code) =>
              .ok (callback_body :: code, data ++ [continuation], kill)
        | none => .error .underflow
    else if is_reset object then
      -- r =  (but only when no dead code references it)
      if !kill.isEmpty then
        let (data', kill') := freeze object data kill
        .ok (code, data', kill')
      else
        .ok (code, data, kill)
    else if is_id object then
      .ok (code, data, kill)
    else
      let (data', kill') := freeze object data kill
      .ok (code, data', kill')

/-- The fuel loop of `reduce` in `src/reduce.rs`. -/
def reduce_eq_loop : Nat → List Object × List Object × List Object →
    Except Error (List Object × List Object × List Object)
  | 0, st => .ok st
  | time + 1, (code, data, kill) =>
    if code = [] then .ok (code, data, kill)
    else
      match step_eq code data kill with
      | .error e => .error e
      | .ok st => reduce_eq_loop time st

/-- `reduce` from `src/reduce.rs`: run the loop, then flush — remaining
code rendered next-to-execute first, preceded by the data stack in push
order, preceded by the dead `kill` code in freeze order. -/
def reduce_eq (root : Object) (time : Nat) : Except Error Object :=
  match reduce_eq_loop time ([root], [], []) with
  | .error e => .error e
  | .ok (code, data, kill) =>
    .ok (kill.foldr (fun object xs => Object.sequence object xs)
      (data.foldr (fun object xs => Object.sequence object xs)
        (code.foldr (fun object xs => Object.sequence object xs) .id)))

end EqCore

/-! ### Lemmas about the normalizing sequence constructor -/

namespace RT

theorem new_sequence_atom {a : Object} (h1 : is_sequence a = false) (h2 : is_id a = false)
    (t : Object) : new_sequence a t = .sequence a t := by
  cases a <;> simp_all [new_sequence, is_sequence, is_id]

theorem new_sequence_assoc (X Y Z : Object) :
    new_sequence (new_sequence X Y) Z = new_sequence X (new_sequence Y Z) := by
  induction X generalizing Y Z with
  | id => rfl
  | sequence a b iha ihb =>
    show new_sequence (new_sequence a (new_sequence b Y)) Z
      = new_sequence a (new_sequence b (new_sequence Y Z))
    rw [iha, ihb]
  | opcode op => rfl
  | word v => rfl
  | hint v => rfl
  | block body => rfl

theorem new_sequence_seq_chain (xs : List Object) (t : Object) :
    new_sequence (seq_chain xs .id) t = seq_chain xs t := by
  induction xs with
  | nil => rfl
  | cons x xs ih =>
    show new_sequence (new_sequence x (seq_chain xs .id)) t
      = new_sequence x (seq_chain xs t)
    rw [new_sequence_assoc, ih]

theorem new_sequence_id_of_chain (X : Object) :
    is_chain X = true → new_sequence X .id = X := by
  induction X with
  | id => intro _; rfl
  | sequence a b iha ihb =>
    intro h
    simp only [is_chain, Bool.and_eq_true, Bool.not_eq_true'] at h
    obtain ⟨⟨ha1, ha2⟩, hb⟩ := h
    show new_sequence a (new_sequence b .id) = .sequence a b
    rw [ihb hb, new_sequence_atom ha1 ha2]
  | opcode op => intro h; simp [is_chain] at h
  | word v => intro h; simp [is_chain] at h
  | hint v => intro h; simp [is_chain] at h
  | block body _ => intro h; simp [is_chain] at h

theorem quote_new_sequence_id (X : Object) :
    normal X = true → quote (new_sequence X .id) = quote X := by
  induction X with
  | id => intro _; rfl
  | opcode op => intro _; simp [new_sequence, quote]
  | word v => intro _; simp [new_sequence, quote]
  | hint v => intro _; simp [new_sequence, quote]
  | block body _ => intro _; simp [new_sequence, quote]
  | sequence a b iha ihb =>
    intro h
    simp only [normal, Bool.and_eq_true, Bool.not_eq_true'] at h
    obtain ⟨⟨⟨ha1, ha2⟩, hna⟩, hnb⟩ := h
    show quote (new_sequence a (new_sequence b .id)) = quote (.sequence a b)
    rw [new_sequence_atom ha1 ha2]
    cases b with
    | id => rfl
    | opcode op => simp [quote, new_sequence]
    | word v => simp [quote, new_sequence]
    | hint v => simp [quote, new_sequence]
    | block body => simp [quote, new_sequence]
    | sequence b1 b2 =>
      have hb' := ihb hnb
      simp only [normal, Bool.and_eq_true, Bool.not_eq_true'] at hnb
      obtain ⟨⟨⟨hb1, hb2⟩, _⟩, _⟩ := hnb
      have hbeq : new_sequence (Object.sequence b1 b2) .id
          = .sequence b1 (new_sequence b2 .id) := by
        show new_sequence b1 (new_sequence b2 .id) = _
        exact new_sequence_atom hb1 hb2 _
      rw [hbeq] at hb' ⊢
      show quote a ++ (" " ++ quote (.sequence b1 (new_sequence b2 .id)))
        = quote a ++ (" " ++ quote (.sequence b1 b2))
      rw [hb']

theorem is_block_block (b : Object) : is_block (.block b) = true := rfl

theorem pop_head_fst_not_sequence :
    ∀ (x : Object) (rest : List Object), is_sequence (pop_head x rest).1 = false := by
  intro x
  induction x with
  | sequence a b iha _ => intro rest; exact iha (b :: rest)
  | id => intro rest; rfl
  | opcode op => intro rest; rfl
  | word v => intro rest; rfl
  | hint v => intro rest; rfl
  | block body _ => intro rest; rfl

/-- One successful, invariant-preserving step: whenever the
continuation is non-empty and every environment entry is a block,
`step` succeeds and every environment entry is still a block. -/
theorem step_sound (tab : String → Option Object) (f : Frame)
    (hc : f.con ≠ []) (hb : env_blocks f = true) :
    ∃ f', step tab f = .ok f' ∧ env_blocks f' = true := by
  obtain ⟨fcon, env, err⟩ := f
  cases fcon with
  | nil => exact absurd rfl hc
  | cons x con0 =>
    simp only [env_blocks] at hb
    rcases hph : pop_head x con0 with ⟨code, con⟩
    have hns : is_sequence code = false := by
      have := pop_head_fst_not_sequence x con0
      rw [hph] at this
      exact this
    have hstep : step tab ⟨x :: con0, env, err⟩ = exec tab code ⟨con, env, err⟩ := by
      simp only [step, pop_continuation, hph]
    rw [hstep]
    clear hstep
    cases code with
    | sequence a b => simp [is_sequence] at hns
    | id => exact ⟨_, rfl, by simp [env_blocks, hb]⟩
    | hint v => exact ⟨_, rfl, by simp [env_blocks, hb]⟩
    | block body =>
      exact ⟨_, rfl, by simp [env_blocks, push_environment, List.all_append, hb, is_block]⟩
    | word v =>
      cases htab : tab v with
      | some binding =>
        refine ⟨⟨binding :: con, env, err⟩, ?_, ?_⟩
        · simp [exec, htab, push_continuation_front]
        · simpa [env_blocks] using hb
      | none =>
        refine ⟨⟨con, [], err ++ env ++ [.word v]⟩, ?_, ?_⟩
        · simp [exec, htab, thunk]
        · simp [env_blocks]
    | opcode op =>
      rcases List.eq_nil_or_concat env with henv | ⟨env0, a, henv⟩
      · -- empty environment: every opcode thunks
        subst henv
        cases op <;> exact ⟨_, rfl, by simp [env_blocks, thunk]⟩
      · rw [List.concat_eq_append] at henv
        subst henv
        rw [List.all_append, Bool.and_eq_true] at hb
        obtain ⟨henv0, ha1⟩ := hb
        rw [List.all_cons, Bool.and_eq_true] at ha1
        have hablock : is_block a = true := ha1.1
        obtain ⟨abody, rfl⟩ : ∃ b, a = .block b := by
          cases a <;> simp_all [is_block]
        cases op with
        | app =>
          refine ⟨⟨abody :: con, env0, err⟩, ?_, ?_⟩
          · simp [exec, is_monadic, pop_environment, List.getLast?_concat,
              List.dropLast_concat, get_block_body, push_continuation_front]
          · simpa [env_blocks] using henv0
        | box =>
          refine ⟨⟨con, env0 ++ [.block (.block abody)], err⟩, ?_, ?_⟩
          · simp [exec, is_monadic, pop_environment, List.getLast?_concat,
              List.dropLast_concat, push_environment]
          · simp [env_blocks, List.all_append, List.all_cons, henv0, is_block_block]
        | copy =>
          refine ⟨⟨con, (env0 ++ [.block abody]) ++ [.block abody], err⟩, ?_, ?_⟩
          · simp [exec, is_monadic, peek_environment, List.getLast?_concat,
              push_environment]
          · simp [env_blocks, List.all_append, List.all_cons, henv0, is_block_block]
        | drop =>
          refine ⟨⟨con, env0, err⟩, ?_, ?_⟩
          · simp [exec, is_monadic, pop_environment, List.getLast?_concat,
              List.dropLast_concat]
          · simpa [env_blocks] using henv0
        | prop => exact ⟨_, rfl, by simp [env_blocks, thunk]⟩
        | forAll => exact ⟨_, rfl, by simp [env_blocks, thunk]⟩
        | cat =>
          rcases List.eq_nil_or_concat env0 with henv0' | ⟨env1, a2, henv0'⟩
          · subst henv0'
            exact ⟨_, rfl, by simp [env_blocks, thunk]⟩
          · rw [List.concat_eq_append] at henv0'
            subst henv0'
            rw [List.all_append, Bool.and_eq_true] at henv0
            obtain ⟨henv1, ha2⟩ := henv0
            rw [List.all_cons, Bool.and_eq_true] at ha2
            have ha2block : is_block a2 = true := ha2.1
            obtain ⟨a2body, rfl⟩ : ∃ b, a2 = .block b := by
              cases a2 <;> simp_all [is_block]
            refine ⟨⟨con, env1 ++ [.block (new_sequence a2body abody)], err⟩, ?_, ?_⟩
            · simp [exec, is_dyadic, pop_environment, List.getLast?_concat,
                List.dropLast_concat, get_block_body, push_environment]
            · simp [env_blocks, List.all_append, List.all_cons, henv1, is_block_block]
        | swap =>
          rcases List.eq_nil_or_concat env0 with henv0' | ⟨env1, a2, henv0'⟩
          · subst henv0'
            exact ⟨_, rfl, by simp [env_blocks, thunk]⟩
          · rw [List.concat_eq_append] at henv0'
            subst henv0'
            rw [List.all_append, Bool.and_eq_true] at henv0
            obtain ⟨henv1, ha2⟩ := henv0
            rw [List.all_cons, Bool.and_eq_true] at ha2
            have ha2block : is_block a2 = true := ha2.1
            refine ⟨⟨con, (env1 ++ [.block abody]) ++ [a2], err⟩, ?_, ?_⟩
            · simp [exec, is_dyadic, pop_environment, List.getLast?_concat,
                List.dropLast_concat, push_environment]
            · simp [env_blocks, List.all_append, List.all_cons, henv1, ha2block,
                is_block_block]

theorem reduce_loop_nil (tab : String → Option Object) (time : Nat) (f : Frame)
    (h : f.con = []) : reduce_loop tab time f = .ok f := by
  cases time with
  | zero => rfl
  | succ n => simp [reduce_loop, h]

theorem reduce_loop_step (tab : String → Option Object) (time : Nat) (f f' : Frame)
    (hne : f.con ≠ []) (hs : step tab f = .ok f') :
    reduce_loop tab (time + 1) f = reduce_loop tab time f' := by
  simp [reduce_loop, hne, hs]

/-- `reduce_loop` under the block invariant: never errs, preserves the
invariant. -/
theorem reduce_loop_sound (tab : String → Option Object) (time : Nat) (f : Frame)
    (hb : env_blocks f = true) :
    ∃ f', reduce_loop tab time f = .ok f' ∧ env_blocks f' = true := by
  induction time generalizing f with
  | zero => exact ⟨f, rfl, hb⟩
  | succ n ih =>
    by_cases hc : f.con = []
    · exact ⟨f, reduce_loop_nil tab _ f hc, hb⟩
    · obtain ⟨f', hs, hb'⟩ := step_sound tab f hc hb
      obtain ⟨f'', hrun, hb''⟩ := ih f' hb'
      exact ⟨f'', by rw [reduce_loop_step tab n f f' hc hs]; exact hrun, hb''⟩

end RT

/-! ### Lemmas about the slot-level heap (mark/sweep, staleness) -/

namespace RTHeap

/-- The part of a node the collector never changes. -/
def node_core (node : Node) : Object × Nat := (node.object, node.generation)

theorem lt_length_of_nodeAt_some {h : Heap} {i : Nat} {node : Node}
    (hn : nodeAt h i = some node) : i < h.nodes.length := by
  by_contra hlt
  push_neg at hlt
  rw [nodeAt, List.getD_eq_getElem?_getD, List.getElem?_eq_none_iff.mpr hlt] at hn
  simp at hn

theorem nodeAt_set_self {h : Heap} {i : Nat} {slot : Option Node}
    (hi : i < h.nodes.length) :
    nodeAt { h with nodes := h.nodes.set i slot } i = slot := by
  show (h.nodes.set i slot).getD i none = slot
  rw [List.getD_eq_getElem?_getD, List.getElem?_set_eq hi]
  rfl

theorem nodeAt_set_ne {h : Heap} {i j : Nat} {slot : Option Node} (hij : i ≠ j) :
    nodeAt { h with nodes := h.nodes.set i slot } j = nodeAt h j := by
  show (h.nodes.set i slot).getD j none = h.nodes.getD j none
  rw [List.getD_eq_getElem?_getD, List.getD_eq_getElem?_getD, List.getElem?_set_ne hij]

theorem nodeAt_set_visible {h : Heap} {i : Nat} {node : Node}
    (hn : nodeAt h i = some node) (j : Nat) :
    nodeAt (set_visible h i node) j
      = if j = i then some { node with is_visible := true } else nodeAt h j := by
  unfold set_visible
  by_cases hj : j = i
  · subst hj
    rw [if_pos rfl]
    exact nodeAt_set_self (lt_length_of_nodeAt_some hn)
  · rw [if_neg hj]
    exact nodeAt_set_ne (fun he => hj he.symm)

theorem nodeAt_sweep (h : Heap) (i : Nat) :
    nodeAt (sweep h) i = sweep_node (nodeAt h i) := by
  show (h.nodes.map sweep_node).getD i none = sweep_node (h.nodes.getD i none)
  rw [List.getD_eq_getElem?_getD, List.getD_eq_getElem?_getD, List.getElem?_map]
  cases h.nodes[i]? <;> rfl

theorem visible_at_false_of_clean {h : Heap} (hc : clean_flags h = true) (i : Nat) :
    visible_at h i = false := by
  unfold visible_at
  cases hn : nodeAt h i with
  | none => rfl
  | some node =>
    have hmem : (some node) ∈ h.nodes := by
      unfold nodeAt at hn
      rw [List.getD_eq_getElem?_getD] at hn
      cases hx : h.nodes[i]? with
      | none => rw [hx] at hn; simp at hn
      | some s =>
        rw [hx] at hn
        simp at hn
        subst hn
        exact List.getElem?_mem hx
    have := (List.all_eq_true.mp hc) _ hmem
    simp only [Bool.not_eq_true'] at this
    exact this

theorem set_visible_core {h : Heap} {i : Nat} {node : Node}
    (hn : nodeAt h i = some node) (j : Nat) :
    (nodeAt (set_visible h i node) j).map node_core = (nodeAt h j).map node_core := by
  rw [nodeAt_set_visible hn]
  by_cases hj : j = i
  · subst hj
    rw [if_pos rfl, hn]
    rfl
  · rw [if_neg hj]

theorem set_visible_generation (h : Heap) (i : Nat) (node : Node) :
    (set_visible h i node).generation = h.generation := rfl

theorem set_visible_length (h : Heap) (i : Nat) (node : Node) :
    (set_visible h i node).nodes.length = h.nodes.length := List.length_set _ _ _

/-- A successful `mark` changes only visited flags: objects,
generations, occupancy, the slot count and the generation counter are
untouched. -/
theorem mark_frame {fuel : Nat} : ∀ {h : Heap} {root : Gc} {h' : Heap},
    mark fuel h root = .ok h' →
    h'.generation = h.generation ∧ h'.nodes.length = h.nodes.length ∧
    ∀ i, (nodeAt h' i).map node_core = (nodeAt h i).map node_core := by
  induction fuel with
  | zero => intro h root h' hm; simp [mark] at hm
  | succ n ih =>
    intro h root h' hm
    rw [mark] at hm
    split at hm
    · exact absurd hm (by simp)
    next node hnode =>
      split at hm
      · exact absurd hm (by simp)
      next hgen =>
        split at hm
        next body hobj =>
          obtain ⟨hg, hl, hcore⟩ := ih hm
          exact ⟨hg, by rw [hl, set_visible_length],
            fun i => by rw [hcore i, set_visible_core hnode i]⟩
        next a b hobj =>
          split at hm
          next h2 hma =>
            obtain ⟨hg1, hl1, hcore1⟩ := ih hma
            obtain ⟨hg2, hl2, hcore2⟩ := ih hm
            exact ⟨by rw [hg2, hg1, set_visible_generation],
              by rw [hl2, hl1, set_visible_length],
              fun i => by rw [hcore2 i, hcore1 i, set_visible_core hnode i]⟩
          next e hma => exact absurd hm (by simp)
        next hobj1 hobj2 =>
          rw [Except.ok.injEq] at hm
          subst hm
          exact ⟨rfl, set_visible_length _ _ _, set_visible_core hnode⟩

theorem object_at_congr {h h' : Heap}
    (hcore : ∀ i, (nodeAt h' i).map node_core = (nodeAt h i).map node_core) (p : Gc) :
    object_at h' p = object_at h p := by
  unfold object_at
  have hp := hcore p.index
  cases hn' : nodeAt h' p.index with
  | none =>
    rw [hn'] at hp
    cases hn : nodeAt h p.index with
    | none => rfl
    | some node => rw [hn] at hp; simp at hp
  | some node' =>
    rw [hn'] at hp
    cases hn : nodeAt h p.index with
    | none => rw [hn] at hp; simp at hp
    | some node =>
      rw [hn] at hp
      simp [node_core] at hp
      show (if node'.generation = p.generation then some node'.object else none)
        = (if node.generation = p.generation then some node.object else none)
      rw [hp.1, hp.2]

theorem reach_congr {h h' : Heap} (hobj : ∀ p, object_at h' p = object_at h p)
    {r p : Gc} (hr : Reach h r p) : Reach h' r p := by
  induction hr with
  | refl => exact .refl _
  | block hb _ ih => exact .block (by rw [hobj]; assumption) ih
  | seq_fst hb _ ih => exact .seq_fst (by rw [hobj]; assumption) ih
  | seq_snd hb _ ih => exact .seq_snd (by rw [hobj]; assumption) ih

theorem visible_at_set_visible {h : Heap} {i : Nat} {node : Node}
    (hn : nodeAt h i = some node) (j : Nat) :
    visible_at (set_visible h i node) j
      = if j = i then true else visible_at h j := by
  unfold visible_at
  rw [nodeAt_set_visible hn]
  by_cases hj : j = i
  · rw [if_pos hj, if_pos hj]
  · rw [if_neg hj, if_neg hj]

/-- `mark` never clears a visited flag. -/
theorem mark_visible_mono {fuel : Nat} : ∀ {h : Heap} {root : Gc} {h' : Heap},
    mark fuel h root = .ok h' →
    ∀ i, visible_at h i = true → visible_at h' i = true := by
  induction fuel with
  | zero => intro h root h' hm; simp [mark] at hm
  | succ n ih =>
    intro h root h' hm i hvis
    rw [mark] at hm
    split at hm
    · exact absurd hm (by simp)
    next node hnode =>
      split at hm
      · exact absurd hm (by simp)
      next hgen =>
        have hvis1 : visible_at (set_visible h root.index node) i = true := by
          rw [visible_at_set_visible hnode]
          by_cases hj : i = root.index
          · rw [if_pos hj]
          · rw [if_neg hj]
            exact hvis
        split at hm
        next body hobj => exact ih hm i hvis1
        next a b hobj =>
          split at hm
          next h2 hma => exact ih hm i (ih hma i hvis1)
          next e hma => exact absurd hm (by simp)
        next hobj1 hobj2 =>
          rw [Except.ok.injEq] at hm
          subst hm
          exact hvis1

/-- Everything reachable from the root is visited after a successful
`mark`. -/
theorem mark_complete {fuel : Nat} : ∀ {h : Heap} {root : Gc} {h' : Heap},
    mark fuel h root = .ok h' →
    ∀ {p : Gc}, Reach h root p → visible_at h' p.index = true := by
  induction fuel with
  | zero => intro h root h' hm; simp [mark] at hm
  | succ n ih =>
    intro h root h' hm p hr
    rw [mark] at hm
    split at hm
    · exact absurd hm (by simp)
    next node hnode =>
      split at hm
      · exact absurd hm (by simp)
      next hgen =>
        have hgeq : node.generation = root.generation := not_ne_iff.mp hgen
        have hobjr : object_at h root = some node.object := by
          unfold object_at
          rw [hnode]
          show (if node.generation = root.generation then some node.object else none)
            = some node.object
          rw [if_pos hgeq]
        have hcongr1 : ∀ q, object_at (set_visible h root.index node) q = object_at h q :=
          object_at_congr (set_visible_core hnode)
        split at hm
        next body hobj =>
          cases hr with
          | refl =>
            exact mark_visible_mono hm _
              (by rw [visible_at_set_visible hnode, if_pos rfl])
          | block hb hreach =>
            rw [hobjr, hobj] at hb
            injection hb with hb1
            injection hb1 with hb2
            subst hb2
            exact ih hm (reach_congr hcongr1 hreach)
          | seq_fst hb _ => rw [hobjr, hobj] at hb; simp at hb
          | seq_snd hb _ => rw [hobjr, hobj] at hb; simp at hb
        next a b hobj =>
          split at hm
          next h2 hma =>
            have hcongr2 : ∀ q, object_at h2 q
                = object_at (set_visible h root.index node) q :=
              object_at_congr (mark_frame hma).2.2
            cases hr with
            | refl =>
              exact mark_visible_mono hm _ (mark_visible_mono hma _
                (by rw [visible_at_set_visible hnode, if_pos rfl]))
            | block hb _ => rw [hobjr, hobj] at hb; simp at hb
            | seq_fst hb hreach =>
              rw [hobjr, hobj] at hb
              injection hb with hb1
              injection hb1 with hba hbb
              subst hba
              subst hbb
              exact mark_visible_mono hm _ (ih hma (reach_congr hcongr1 hreach))
            | seq_snd hb hreach =>
              rw [hobjr, hobj] at hb
              injection hb with hb1
              injection hb1 with hba hbb
              subst hba
              subst hbb
              exact ih hm (reach_congr hcongr2 (reach_congr hcongr1 hreach))
          next e hma => exact absurd hm (by simp)
        next hnb hns =>
          rw [Except.ok.injEq] at hm
          subst hm
          cases hr with
          | refl => rw [visible_at_set_visible hnode, if_pos rfl]
          | block hb _ =>
            rw [hobjr] at hb
            injection hb with hb1
            exact absurd hb1 (hnb _)
          | seq_fst hb _ =>
            rw [hobjr] at hb
            injection hb with hb1
            exact absurd hb1 (hns _ _)
          | seq_snd hb _ =>
            rw [hobjr] at hb
            injection hb with hb1
            exact absurd hb1 (hns _ _)

/-- `mark` visits only what was already visited or is reachable from
the root. -/
theorem mark_sound {fuel : Nat} : ∀ {h : Heap} {root : Gc} {h' : Heap},
    mark fuel h root = .ok h' →
    ∀ i, visible_at h' i = true →
      visible_at h i = true ∨ ∃ p : Gc, p.index = i ∧ Reach h root p := by
  induction fuel with
  | zero => intro h root h' hm; simp [mark] at hm
  | succ n ih =>
    intro h root h' hm i hvis
    rw [mark] at hm
    split at hm
    · exact absurd hm (by simp)
    next node hnode =>
      split at hm
      · exact absurd hm (by simp)
      next hgen =>
        have hgeq : node.generation = root.generation := not_ne_iff.mp hgen
        have hobjr : object_at h root = some node.object := by
          unfold object_at
          rw [hnode]
          show (if node.generation = root.generation then some node.object else none)
            = some node.object
          rw [if_pos hgeq]
        have hcongr1 : ∀ q, object_at (set_visible h root.index node) q = object_at h q :=
          object_at_congr (set_visible_core hnode)
        have hsplit1 : ∀ j, visible_at (set_visible h root.index node) j = true →
            visible_at h j = true ∨ ∃ p : Gc, p.index = j ∧ Reach h root p := by
          intro j hj
          rw [visible_at_set_visible hnode] at hj
          by_cases hji : j = root.index
          · exact Or.inr ⟨root, hji.symm, .refl _⟩
          · rw [if_neg hji] at hj
            exact Or.inl hj
        split at hm
        next body hobj =>
          have hbr : object_at h root = some (.block body) := by rw [hobjr, hobj]
          rcases ih hm i hvis with hv1 | ⟨p, hpi, hreach⟩
          · exact hsplit1 i hv1
          · exact Or.inr ⟨p, hpi,
              .block hbr (reach_congr (fun q => (hcongr1 q).symm) hreach)⟩
        next a b hobj =>
          split at hm
          next h2 hma =>
            have hcongr2 : ∀ q, object_at h2 q
                = object_at (set_visible h root.index node) q :=
              object_at_congr (mark_frame hma).2.2
            have hsr : object_at h root = some (.sequence a b) := by rw [hobjr, hobj]
            rcases ih hm i hvis with hv2 | ⟨p, hpi, hreach⟩
            · rcases ih hma i hv2 with hv1 | ⟨p, hpi, hreach⟩
              · exact hsplit1 i hv1
              · exact Or.inr ⟨p, hpi,
                  .seq_fst hsr (reach_congr (fun q => (hcongr1 q).symm) hreach)⟩
            · exact Or.inr ⟨p, hpi, .seq_snd hsr
                (reach_congr (fun q => (hcongr1 q).symm)
                  (reach_congr (fun q => (hcongr2 q).symm) hreach))⟩
          next e hma => exact absurd hm (by simp)
        next hnb hns =>
          rw [Except.ok.injEq] at hm
          subst hm
          exact hsplit1 i hvis

theorem mark_all_frame {fuel : Nat} : ∀ {roots : List Gc} {h h' : Heap},
    mark_all fuel h roots = .ok h' →
    h'.generation = h.generation ∧ h'.nodes.length = h.nodes.length ∧
    ∀ i, (nodeAt h' i).map node_core = (nodeAt h i).map node_core := by
  intro roots
  induction roots with
  | nil =>
    intro h h' hm
    rw [mark_all, Except.ok.injEq] at hm
    subst hm
    exact ⟨rfl, rfl, fun _ => rfl⟩
  | cons r rs ih =>
    intro h h' hm
    rw [mark_all] at hm
    split at hm
    next h1 hm1 =>
      obtain ⟨g1, l1, c1⟩ := mark_frame hm1
      obtain ⟨g2, l2, c2⟩ := ih hm
      exact ⟨g2.trans g1, l2.trans l1, fun i => (c2 i).trans (c1 i)⟩
    next e hm1 => exact absurd hm (by simp)

theorem mark_all_visible_mono {fuel : Nat} : ∀ {roots : List Gc} {h h' : Heap},
    mark_all fuel h roots = .ok h' →
    ∀ i, visible_at h i = true → visible_at h' i = true := by
  intro roots
  induction roots with
  | nil =>
    intro h h' hm i hv
    rw [mark_all, Except.ok.injEq] at hm
    subst hm
    exact hv
  | cons r rs ih =>
    intro h h' hm i hv
    rw [mark_all] at hm
    split at hm
    next h1 hm1 => exact ih hm i (mark_visible_mono hm1 i hv)
    next e hm1 => exact absurd hm (by simp)

theorem mark_all_complete {fuel : Nat} : ∀ {roots : List Gc} {h h' : Heap},
    mark_all fuel h roots = .ok h' →
    ∀ r ∈ roots, ∀ {p : Gc}, Reach h r p → visible_at h' p.index = true := by
  intro roots
  induction roots with
  | nil => intro h h' _ r hr; exact absurd hr (by simp)
  | cons r0 rs ih =>
    intro h h' hm r hr p hreach
    rw [mark_all] at hm
    split at hm
    next h1 hm1 =>
      rcases List.mem_cons.mp hr with rfl | hmem
      · exact mark_all_visible_mono hm _ (mark_complete hm1 hreach)
      · have hcongr : ∀ q, object_at h1 q = object_at h q :=
          object_at_congr (mark_frame hm1).2.2
        exact ih hm r hmem (reach_congr hcongr hreach)
    next e hm1 => exact absurd hm (by simp)

theorem mark_all_sound {fuel : Nat} : ∀ {roots : List Gc} {h h' : Heap},
    mark_all fuel h roots = .ok h' →
    ∀ i, visible_at h' i = true →
      visible_at h i = true ∨ ∃ r ∈ roots, ∃ p : Gc, p.index = i ∧ Reach h r p := by
  intro roots
  induction roots with
  | nil =>
    intro h h' hm i hv
    rw [mark_all, Except.ok.injEq] at hm
    subst hm
    exact Or.inl hv
  | cons r0 rs ih =>
    intro h h' hm i hv
    rw [mark_all] at hm
    split at hm
    next h1 hm1 =>
      have hcongr : ∀ q, object_at h1 q = object_at h q :=
        object_at_congr (mark_frame hm1).2.2
      rcases ih hm i hv with hv1 | ⟨r, hr, p, hpi, hreach⟩
      · rcases mark_sound hm1 i hv1 with hv0 | ⟨p, hpi, hreach⟩
        · exact Or.inl hv0
        · exact Or.inr ⟨r0, List.mem_cons_self _ _, p, hpi, hreach⟩
      · exact Or.inr ⟨r, List.mem_cons_of_mem _ hr, p, hpi,
          reach_congr (fun q => (hcongr q).symm) hreach⟩
    next e hm1 => exact absurd hm (by simp)

theorem object_at_spec {h : Heap} {p : Gc} {o : Object} (hobj : object_at h p = some o) :
    ∃ node : Node, nodeAt h p.index = some node ∧
      node.generation = p.generation ∧ node.object = o := by
  cases hn : nodeAt h p.index with
  | none =>
    simp only [object_at, hn] at hobj
    exact absurd hobj (by simp)
  | some node =>
    simp only [object_at, hn] at hobj
    by_cases hg : node.generation = p.generation
    · rw [if_pos hg] at hobj
      injection hobj with ho
      exact ⟨node, rfl, hg, ho⟩
    · rw [if_neg hg] at hobj
      simp at hobj

/-- From a leaf node nothing but the node itself is reachable. -/
theorem reach_of_leaf {h : Heap} {r p : Gc} (hobj : object_at h r = some .id)
    (hreach : Reach h r p) : p = r := by
  cases hreach with
  | refl => rfl
  | block hb _ => rw [hobj] at hb; simp at hb
  | seq_fst hb _ => rw [hobj] at hb; simp at hb
  | seq_snd hb _ => rw [hobj] at hb; simp at hb

theorem first_free_lt_length : ∀ {l : List (Option Node)} {i : Nat},
    first_free l = some i → i < l.length := by
  intro l
  induction l with
  | nil => intro i hf; simp [first_free] at hf
  | cons x xs ih =>
    intro i hf
    cases x with
    | none =>
      rw [first_free] at hf
      injection hf with hf
      subst hf
      simp
    | some nd =>
      rw [first_free] at hf
      cases hf' : first_free xs with
      | none => rw [hf'] at hf; simp at hf
      | some j =>
        rw [hf'] at hf
        simp at hf
        subst hf
        have := ih hf'
        simp
        omega

theorem stale_get_ref {h : Heap} {p : Gc} (hs : stale h p) :
    get_ref h p = .error .null := by
  unfold get_ref
  cases hn : nodeAt h p.index with
  | none => rfl
  | some node =>
    show (if node.generation = p.generation then Except.ok node.object
      else Except.error Error.null) = Except.error Error.null
    rw [if_neg (hs.2 node hn)]

theorem heap_step_put_some (h : Heap) (o : Object) {idx : Nat}
    (hff : first_free h.nodes = some idx) :
    heap_step h (.put o)
      = { h with
          nodes := h.nodes.set idx (some ⟨o, h.generation, false⟩) } := by
  show (match put h o with | .ok (_, h') => h' | .error _ => h) = _
  unfold put
  rw [hff]

theorem heap_step_put_none (h : Heap) (o : Object) (hff : first_free h.nodes = none) :
    heap_step h (.put o) = h := by
  show (match put h o with | .ok (_, h') => h' | .error _ => h) = _
  unfold put
  rw [hff]

theorem heap_step_mark_ok {h h' : Heap} {fuel : Nat} {r : Gc}
    (hm : mark fuel h r = .ok h') : heap_step h (.mark fuel r) = h' := by
  show (match mark fuel h r with | .ok h2 => h2 | .error _ => h) = h'
  rw [hm]

theorem heap_step_mark_err {h : Heap} {fuel : Nat} {r : Gc} {e : Error}
    (hm : mark fuel h r = .error e) : heap_step h (.mark fuel r) = h := by
  show (match mark fuel h r with | .ok h2 => h2 | .error _ => h) = h
  rw [hm]

theorem stale_heap_step {h : Heap} {p : Gc} (hs : stale h p) (op : HeapOp) :
    stale (heap_step h op) p := by
  obtain ⟨hlt, hslot⟩ := hs
  cases op with
  | put o =>
    cases hff : first_free h.nodes with
    | none =>
      rw [heap_step_put_none h o hff]
      exact ⟨hlt, hslot⟩
    | some idx =>
      rw [heap_step_put_some h o hff]
      refine ⟨hlt, ?_⟩
      intro node hn
      by_cases hidx : idx = p.index
      · subst hidx
        rw [nodeAt_set_self (first_free_lt_length hff)] at hn
        injection hn with hn
        subst hn
        show h.generation ≠ p.generation
        omega
      · rw [nodeAt_set_ne hidx] at hn
        exact hslot node hn
  | sweep =>
    show stale (sweep h) p
    refine ⟨Nat.lt_succ_of_lt hlt, ?_⟩
    intro node hn
    rw [nodeAt_sweep] at hn
    cases hsl : nodeAt h p.index with
    | none => rw [hsl] at hn; simp [sweep_node] at hn
    | some nd =>
      rw [hsl] at hn
      simp only [sweep_node] at hn
      by_cases hv : nd.is_visible = true
      · rw [if_pos hv] at hn
        injection hn with hn
        subst hn
        exact hslot nd hsl
      · rw [if_neg hv] at hn
        simp at hn
  | mark fuel r =>
    cases hm : mark fuel h r with
    | error e =>
      rw [heap_step_mark_err hm]
      exact ⟨hlt, hslot⟩
    | ok h2 =>
      rw [heap_step_mark_ok hm]
      obtain ⟨hg, _, hcore⟩ := mark_frame hm
      refine ⟨by rw [hg]; exact hlt, ?_⟩
      intro node hn
      have hc := hcore p.index
      rw [hn] at hc
      cases hsl : nodeAt h p.index with
      | none => rw [hsl] at hc; simp at hc
      | some nd =>
        rw [hsl] at hc
        simp [node_core] at hc
        rw [hc.2]
        exact hslot nd hsl

theorem stale_run_ops {h : Heap} {p : Gc} (hs : stale h p) (ops : List HeapOp) :
    stale (run_ops h ops) p := by
  induction ops generalizing h with
  | nil => exact hs
  | cons op ops ih => exact ih (stale_heap_step hs op)

end RTHeap

/-! ### Claim theorems (term-level machine) -/

/-- C3 (counterexample): the claim says constructing
`Concatenation(X, Empty)` yields `X`, but `Heap::new_sequence` never
inspects its second argument: on `X = Symbol "A"` it allocates
`Sequence(Symbol "A", Empty)`, a different term. -/
theorem rt_monoid_counterexample :
    RT.new_sequence (.word "A") .id = .sequence (.word "A") .id ∧
    RT.Object.sequence (.word "A") .id ≠ .word "A" := by
  exact ⟨rfl, by decide⟩

/-- C3 (amended): `Empty` is a left identity of `new_sequence`,
composition is associative, and a `Concatenation` left child is
immediately re-associated to the right; but `new_sequence X Empty` is
NOT collapsed to `X` — for every normalized term it merely renders
identically to `X` (the quoter omits a trailing `Empty`). -/
theorem rt_monoid_amended :
    (∀ X : RT.Object, RT.new_sequence .id X = X) ∧
    (∀ X Y Z : RT.Object,
      RT.new_sequence (RT.new_sequence X Y) Z = RT.new_sequence X (RT.new_sequence Y Z)) ∧
    (∀ a1 a2 b : RT.Object,
      RT.new_sequence (.sequence a1 a2) b = RT.new_sequence a1 (RT.new_sequence a2 b)) ∧
    (∀ X : RT.Object, RT.normal X = true →
      RT.quote (RT.new_sequence X .id) = RT.quote X) := by
  refine ⟨fun X => rfl, RT.new_sequence_assoc, fun a1 a2 b => rfl, RT.quote_new_sequence_id⟩

/-- C3 (witness): the amended right-identity law applied at
`X = Symbol "A"`. -/
theorem rt_monoid_amended_witness :
    RT.quote (RT.new_sequence (.word "A") .id) = RT.quote (.word "A") :=
  rt_monoid_amended.2.2.2 (.word "A") (by decide)

/-- C7 (counterexample): `reduce(P, 0)` does not return every `P`
unchanged — flushing the untouched continuation rebuilds it as an
`Id`-terminated chain, so a bare `Copy` opcode comes back as
`Sequence(Copy, Empty)` ≠ `Copy`. -/
theorem rt_zero_fuel_counterexample :
    RT.reduce (fun _ => none) (.opcode .copy) 0 = .ok (.sequence (.opcode .copy) .id) ∧
    RT.Object.sequence (.opcode .copy) .id ≠ .opcode .copy := by
  exact ⟨rfl, by decide⟩

/-- C7 (amended): for every term whose top-level spine is a normalized
`Id`-terminated chain — the shape of every term produced by `parse` or
by `reduce` itself — `reduce(P, 0)` returns `P` unchanged, for any
binding table. -/
theorem rt_zero_fuel_amended (tab : String → Option RT.Object) (root : RT.Object)
    (h : RT.is_chain root = true) : RT.reduce tab root 0 = .ok root := by
  show Except.ok (RT.new_sequence (RT.get_environment_term (RT.with_continuation root))
      (RT.get_continuation_term (RT.with_continuation root))) = .ok root
  simp only [RT.get_environment_term, RT.get_continuation_term, RT.with_continuation,
    RT.Frame.new, RT.seq_chain, List.foldr, List.foldl]
  rw [show RT.new_sequence .id (RT.new_sequence root .id)
      = RT.new_sequence root .id from rfl]
  rw [RT.new_sequence_id_of_chain root h]

/-- C7 (witness): the amended zero-fuel identity at the one-word
program `A`. -/
theorem rt_zero_fuel_amended_witness :
    RT.reduce (fun _ => none) (.sequence (.word "A") .id) 0
      = .ok (.sequence (.word "A") .id) :=
  rt_zero_fuel_amended (fun _ => none) (.sequence (.word "A") .id) (by decide)

/-- C1 (code bug): fuel splitting is NOT resumable.  On the program
`[d] a f` (Apply unpacks `[d]`, leaving the two-segment continuation
`d`-body · `f`-tail), stopping after 2 steps flushes the remaining
continuation REVERSED (`Thread::get_continuation` iterates the deque
front-to-back while prepending, unlike `get_environment`, which
iterates `.rev()`): `reduce(P,2)` yields `f d`, and resuming it with
any fuel keeps `f d`, while `reduce(P,4)` yields `d f`. -/
theorem rt_fuel_split_counterexample :
    RT.parse "[d] a f" = .ok (.sequence (.block (.sequence (.opcode .copy) .id))
      (.sequence (.opcode .app) (.sequence (.opcode .swap) .id))) ∧
    RT.reduce (fun _ => none)
      (.sequence (.block (.sequence (.opcode .copy) .id))
        (.sequence (.opcode .app) (.sequence (.opcode .swap) .id))) 2
      = .ok (.sequence (.opcode .swap) (.sequence (.opcode .copy) .id)) ∧
    RT.reduce (fun _ => none)
      (.sequence (.opcode .swap) (.sequence (.opcode .copy) .id)) 2
      = .ok (.sequence (.opcode .swap) (.sequence (.opcode .copy) .id)) ∧
    RT.reduce (fun _ => none)
      (.sequence (.block (.sequence (.opcode .copy) .id))
        (.sequence (.opcode .app) (.sequence (.opcode .swap) .id))) 4
      = .ok (.sequence (.opcode .copy) (.sequence (.opcode .swap) .id)) ∧
    RT.Object.sequence (.opcode .swap) (.sequence (.opcode .copy) .id)
      ≠ .sequence (.opcode .copy) (.sequence (.opcode .swap) .id) := by
  refine ⟨rfl, rfl, rfl, rfl, by decide⟩

/-- C2 (counterexample): when the continuation empties naturally the
result is NOT `Concatenation(flushed-environment, flushed-thunk-list)`.
On `g [A]` (the always-stuck `Forall` followed by a value) the thunk
list holds `g` and the environment holds `[A]`; the code returns
`g [A]` — thunk list first — not `[A] g` as the claim states. -/
theorem rt_flush_order_counterexample :
    RT.reduce (fun _ => none)
      (.sequence (.opcode .forAll) (.sequence (.block (.sequence (.word "A") .id)) .id)) 3
      = .ok (.sequence (.opcode .forAll)
          (.sequence (.block (.sequence (.word "A") .id)) .id)) ∧
    RT.Object.sequence (.opcode .forAll) (.sequence (.block (.sequence (.word "A") .id)) .id)
      ≠ .sequence (.block (.sequence (.word "A") .id)) (.sequence (.opcode .forAll) .id) := by
  exact ⟨rfl, by decide⟩

/-- C2 (amended): whenever `reduce` exits because the continuation
emptied before fuel ran out, the returned term is the Concatenation of
the flushed THUNK LIST (in original program order) followed by the
flushed ENVIRONMENT (in push order) — the reverse of the order the
claim states. -/
theorem rt_flush_order_amended (tab : String → Option RT.Object) (root : RT.Object)
    (time_quota : Nat) (f : RT.Frame)
    (hrun : RT.reduce_loop tab time_quota (RT.with_continuation root) = .ok f)
    (hcon : f.con = []) :
    RT.reduce tab root time_quota
      = .ok (RT.new_sequence (RT.seq_chain f.err .id) (RT.seq_chain f.env .id)) := by
  unfold RT.reduce
  rw [hrun]
  show (if f.con = [] then Except.ok (RT.get_environment_term f)
    else Except.ok (RT.new_sequence (RT.get_environment_term f) (RT.get_continuation_term f))) = _
  rw [if_pos hcon]
  unfold RT.get_environment_term
  rw [RT.new_sequence_seq_chain]

/-- C2 (witness): the amended flush order on `g [A]` with fuel 3 (the
loop ends in the frame with environment `[A]` and thunk list `g`). -/
theorem rt_flush_order_amended_witness :
    RT.reduce (fun _ => none)
      (.sequence (.opcode .forAll) (.sequence (.block (.sequence (.word "A") .id)) .id)) 3
      = .ok (RT.new_sequence
          (RT.seq_chain [.opcode .forAll] .id)
          (RT.seq_chain [.block (.sequence (.word "A") .id)] .id)) :=
  rt_flush_order_amended (fun _ => none)
    (.sequence (.opcode .forAll) (.sequence (.block (.sequence (.word "A") .id)) .id)) 3
    ⟨[], [.block (.sequence (.word "A") .id)], [.opcode .forAll]⟩ rfl rfl

/-- C6: when a dispatched `Primitive` needs more operands than the
environment holds (`Prop`/`Forall` always), `step` empties the whole
environment onto the thunk list, appends the instruction itself, and
returns without error; in particular the one-instruction program `Copy`
reduces to itself under every fuel budget. -/
theorem rt_stuck_protocol :
    (∀ (tab : String → Option RT.Object) (f : RT.Frame) (op : RT.Opcode)
        (rest : List RT.Object),
      f.con = .opcode op :: rest → RT.stuck_without op f.env.length = true →
      RT.step tab f = .ok ⟨rest, [], f.err ++ f.env ++ [.opcode op]⟩) ∧
    (∀ time_quota : Nat,
      RT.reduce (fun _ => none) (.sequence (.opcode .copy) .id) time_quota
        = .ok (.sequence (.opcode .copy) .id)) := by
  constructor
  · intro tab f op rest hcon hstuck
    obtain ⟨con, env, err⟩ := f
    simp only at hcon
    subst hcon
    cases op <;>
      simp_all [RT.step, RT.exec, RT.pop_continuation, RT.pop_head, RT.stuck_without,
        RT.is_monadic, RT.is_dyadic, RT.thunk]
  · intro time_quota
    match time_quota with
    | 0 => rfl
    | 1 => rfl
    | (n + 2) =>
      have s1 : RT.reduce_loop (fun _ => none) (n + 1 + 1)
          (RT.with_continuation (.sequence (.opcode .copy) .id))
          = RT.reduce_loop (fun _ => none) (n + 1) ⟨[.id], [], [.opcode .copy]⟩ :=
        RT.reduce_loop_step _ _ _ _ (by simp [RT.with_continuation, RT.Frame.new]) rfl
      have s2 : RT.reduce_loop (fun _ => none) (n + 1) ⟨[.id], [], [.opcode .copy]⟩
          = RT.reduce_loop (fun _ => none) n ⟨[], [], [.opcode .copy]⟩ :=
        RT.reduce_loop_step _ _ _ _ (by simp) rfl
      have s3 : RT.reduce_loop (fun _ => none) n ⟨[], [], [.opcode .copy]⟩
          = .ok ⟨[], [], [.opcode .copy]⟩ := RT.reduce_loop_nil _ _ _ rfl
      unfold RT.reduce
      rw [show ((n + 2 : Nat)) = n + 1 + 1 from rfl, s1, s2, s3]
      rfl

/-- C6 (witness): the stuck protocol applied to a dyadic `Concatenate`
over a one-element environment. -/
theorem rt_stuck_protocol_witness :
    RT.step (fun _ => none) ⟨[.opcode .cat], [.block .id], []⟩
      = .ok ⟨[], [], [.block .id, .opcode .cat]⟩ :=
  rt_stuck_protocol.1 (fun _ => none) ⟨[.opcode .cat], [.block .id], []⟩ .cat [] rfl (by decide)

/-- C10: every value the machine ever pushes on the environment stack
is a block (`step` preserves the invariant), and consequently in a full
run started from any root — where the environment starts empty — the
`Underflow` branch of `pop_environment` and the `Tag` branch of
`get_block_body` on popped environment values are unreachable: `reduce`
never returns those errors, for any program, table and fuel. -/
theorem rt_env_blocks_invariant :
    (∀ (tab : String → Option RT.Object) (f f' : RT.Frame),
      RT.env_blocks f = true → RT.step tab f = .ok f' → RT.env_blocks f' = true) ∧
    (∀ (tab : String → Option RT.Object) (root : RT.Object) (time_quota : Nat),
      RT.reduce tab root time_quota ≠ .error .underflow ∧
      RT.reduce tab root time_quota ≠ .error .tag) := by
  constructor
  · intro tab f f' hb hs
    by_cases hc : f.con = []
    · -- with an empty continuation `step` fails, contradicting success
      exfalso
      rw [show RT.step tab f = .error .bug from by
        unfold RT.step
        rw [hc]
        rfl] at hs
      cases hs
    · obtain ⟨f'', hs', hb'⟩ := RT.step_sound tab f hc hb
      rw [hs'] at hs
      cases hs
      exact hb'
  · intro tab root time_quota
    obtain ⟨f', hrun, _⟩ := RT.reduce_loop_sound tab time_quota
      (RT.with_continuation root) (by simp [RT.with_continuation, RT.Frame.new, RT.env_blocks])
    unfold RT.reduce
    rw [hrun]
    by_cases hc : f'.con = [] <;> simp [hc]

/-- C10 (witness): the invariant-preservation part applied to a `Box`
step over the one-block environment `[[]]`. -/
theorem rt_env_blocks_invariant_witness :
    RT.env_blocks ⟨[], [.block (.block .id)], []⟩ = true :=
  rt_env_blocks_invariant.1 (fun _ => none) ⟨[.opcode .box], [.block .id], []⟩
    ⟨[], [.block (.block .id)], []⟩ (by decide) rfl

/-- C4: a pointer issued before a sweep into a slot that the sweep
frees (it names a live, unvisited node) fails every typed accessor with
`Null` in every later heap state, whatever allocations, sweeps and
marks follow — the slot's stamp can never again equal the pointer's,
because reuse stamps the slot with the strictly larger current
generation. -/
theorem rt_stale_pointer_safety (h : RTHeap.Heap) (p : RTHeap.Gc) (node : RTHeap.Node)
    (hval : RTHeap.nodeAt h p.index = some node)
    (hgen : node.generation = p.generation)
    (hbound : p.generation ≤ h.generation)
    (hvis : node.is_visible = false)
    (ops : List RTHeap.HeapOp) :
    RTHeap.get_ref (RTHeap.run_ops (RTHeap.sweep h) ops) p = .error .null ∧
    RTHeap.is_id (RTHeap.run_ops (RTHeap.sweep h) ops) p = .error .null ∧
    RTHeap.is_opcode (RTHeap.run_ops (RTHeap.sweep h) ops) p = .error .null ∧
    RTHeap.is_word (RTHeap.run_ops (RTHeap.sweep h) ops) p = .error .null ∧
    RTHeap.is_hint (RTHeap.run_ops (RTHeap.sweep h) ops) p = .error .null ∧
    RTHeap.is_block (RTHeap.run_ops (RTHeap.sweep h) ops) p = .error .null ∧
    RTHeap.is_sequence (RTHeap.run_ops (RTHeap.sweep h) ops) p = .error .null ∧
    RTHeap.get_opcode (RTHeap.run_ops (RTHeap.sweep h) ops) p = .error .null ∧
    RTHeap.get_word (RTHeap.run_ops (RTHeap.sweep h) ops) p = .error .null ∧
    RTHeap.get_hint (RTHeap.run_ops (RTHeap.sweep h) ops) p = .error .null ∧
    RTHeap.get_block_body (RTHeap.run_ops (RTHeap.sweep h) ops) p = .error .null ∧
    RTHeap.get_sequence_fst (RTHeap.run_ops (RTHeap.sweep h) ops) p = .error .null ∧
    RTHeap.get_sequence_snd (RTHeap.run_ops (RTHeap.sweep h) ops) p = .error .null := by
  have hstale : RTHeap.stale (RTHeap.sweep h) p := by
    constructor
    · show p.generation < h.generation + 1
      omega
    · intro nd hn
      rw [RTHeap.nodeAt_sweep, hval] at hn
      simp only [RTHeap.sweep_node] at hn
      rw [if_neg (by simp [hvis])] at hn
      exact absurd hn (by simp)
  have hg := RTHeap.stale_get_ref (RTHeap.stale_run_ops hstale ops)
  refine ⟨hg, ?_, ?_, ?_, ?_, ?_, ?_, ?_, ?_, ?_, ?_, ?_, ?_⟩
  · unfold RTHeap.is_id
    rw [hg]
  · unfold RTHeap.is_opcode
    rw [hg]
  · unfold RTHeap.is_word
    rw [hg]
  · unfold RTHeap.is_hint
    rw [hg]
  · unfold RTHeap.is_block
    rw [hg]
  · unfold RTHeap.is_sequence
    rw [hg]
  · unfold RTHeap.get_opcode
    rw [hg]
  · unfold RTHeap.get_word
    rw [hg]
  · unfold RTHeap.get_hint
    rw [hg]
  · unfold RTHeap.get_block_body
    rw [hg]
  · unfold RTHeap.get_sequence_fst
    rw [hg]
  · unfold RTHeap.get_sequence_snd
    rw [hg]

/-- C4 (witness): a one-slot heap whose unvisited node is freed by the
sweep, afterwards reallocated by a `put`; the stale pointer still fails
with `Null`. -/
theorem rt_stale_pointer_safety_witness :
    RTHeap.get_ref
      (RTHeap.run_ops (RTHeap.sweep ⟨[some ⟨.id, 0, false⟩], 0⟩) [.put .id]) ⟨0, 0⟩
      = .error .null ∧
    RTHeap.is_id
      (RTHeap.run_ops (RTHeap.sweep ⟨[some ⟨.id, 0, false⟩], 0⟩) [.put .id]) ⟨0, 0⟩
      = .error .null ∧
    RTHeap.is_opcode
      (RTHeap.run_ops (RTHeap.sweep ⟨[some ⟨.id, 0, false⟩], 0⟩) [.put .id]) ⟨0, 0⟩
      = .error .null ∧
    RTHeap.is_word
      (RTHeap.run_ops (RTHeap.sweep ⟨[some ⟨.id, 0, false⟩], 0⟩) [.put .id]) ⟨0, 0⟩
      = .error .null ∧
    RTHeap.is_hint
      (RTHeap.run_ops (RTHeap.sweep ⟨[some ⟨.id, 0, false⟩], 0⟩) [.put .id]) ⟨0, 0⟩
      = .error .null ∧
    RTHeap.is_block
      (RTHeap.run_ops (RTHeap.sweep ⟨[some ⟨.id, 0, false⟩], 0⟩) [.put .id]) ⟨0, 0⟩
      = .error .null ∧
    RTHeap.is_sequence
      (RTHeap.run_ops (RTHeap.sweep ⟨[some ⟨.id, 0, false⟩], 0⟩) [.put .id]) ⟨0, 0⟩
      = .error .null ∧
    RTHeap.get_opcode
      (RTHeap.run_ops (RTHeap.sweep ⟨[some ⟨.id, 0, false⟩], 0⟩) [.put .id]) ⟨0, 0⟩
      = .error .null ∧
    RTHeap.get_word
      (RTHeap.run_ops (RTHeap.sweep ⟨[some ⟨.id, 0, false⟩], 0⟩) [.put .id]) ⟨0, 0⟩
      = .error .null ∧
    RTHeap.get_hint
      (RTHeap.run_ops (RTHeap.sweep ⟨[some ⟨.id, 0, false⟩], 0⟩) [.put .id]) ⟨0, 0⟩
      = .error .null ∧
    RTHeap.get_block_body
      (RTHeap.run_ops (RTHeap.sweep ⟨[some ⟨.id, 0, false⟩], 0⟩) [.put .id]) ⟨0, 0⟩
      = .error .null ∧
    RTHeap.get_sequence_fst
      (RTHeap.run_ops (RTHeap.sweep ⟨[some ⟨.id, 0, false⟩], 0⟩) [.put .id]) ⟨0, 0⟩
      = .error .null ∧
    RTHeap.get_sequence_snd
      (RTHeap.run_ops (RTHeap.sweep ⟨[some ⟨.id, 0, false⟩], 0⟩) [.put .id]) ⟨0, 0⟩
      = .error .null :=
  rt_stale_pointer_safety ⟨[some ⟨.id, 0, false⟩], 0⟩ ⟨0, 0⟩ ⟨.id, 0, false⟩
    rfl rfl (Nat.le_refl 0) rfl [.put .id]

/-- C5: GC soundness.  Starting from a heap with all visited flags
clear, after `mark` has been run on every root and a sweep follows:
every node reachable from some root still occupies its slot with an
unchanged generation stamp (and unchanged object), and every occupied
slot unreachable from every root is freed. -/
theorem rt_gc_soundness (h : RTHeap.Heap) (roots : List RTHeap.Gc) (fuel : Nat)
    (h' : RTHeap.Heap)
    (hclean : RTHeap.clean_flags h = true)
    (hmark : RTHeap.mark_all fuel h roots = .ok h') :
    (∀ r ∈ roots, ∀ (p : RTHeap.Gc) (o : RTHeap.Object),
      RTHeap.Reach h r p → RTHeap.object_at h p = some o →
      ∃ node : RTHeap.Node, RTHeap.nodeAt (RTHeap.sweep h') p.index = some node ∧
        node.generation = p.generation ∧ node.object = o) ∧
    (∀ i : Nat, RTHeap.occupied h i = true →
      (∀ r ∈ roots, ∀ p : RTHeap.Gc, p.index = i → ¬ RTHeap.Reach h r p) →
      RTHeap.nodeAt (RTHeap.sweep h') i = none) := by
  constructor
  · intro r hr p o hreach hobj
    obtain ⟨nd, hnd, hgen, hobjeq⟩ := RTHeap.object_at_spec hobj
    have hvis := RTHeap.mark_all_complete hmark r hr hreach
    have hcore := (RTHeap.mark_all_frame hmark).2.2 p.index
    rw [hnd] at hcore
    cases hn' : RTHeap.nodeAt h' p.index with
    | none => rw [hn'] at hcore; simp at hcore
    | some nd' =>
      rw [hn'] at hcore
      simp [RTHeap.node_core] at hcore
      have hv' : nd'.is_visible = true := by
        unfold RTHeap.visible_at at hvis
        rw [hn'] at hvis
        exact hvis
      refine ⟨{ nd' with is_visible := false }, ?_, ?_, ?_⟩
      · rw [RTHeap.nodeAt_sweep, hn']
        simp only [RTHeap.sweep_node]
        rw [if_pos hv']
      · show nd'.generation = p.generation
        rw [hcore.2, hgen]
      · show nd'.object = o
        rw [hcore.1, hobjeq]
  · intro i hocc hnoreach
    have hv : RTHeap.visible_at h' i = false := by
      cases hvq : RTHeap.visible_at h' i
      · rfl
      · exfalso
        rcases RTHeap.mark_all_sound hmark i hvq with hv0 | ⟨r, hr, p, hpi, hreach⟩
        · rw [RTHeap.visible_at_false_of_clean hclean i] at hv0
          simp at hv0
        · exact hnoreach r hr p hpi hreach
    have hcore := (RTHeap.mark_all_frame hmark).2.2 i
    unfold RTHeap.occupied at hocc
    cases hn : RTHeap.nodeAt h i with
    | none => rw [hn] at hocc; simp at hocc
    | some nd =>
      rw [hn] at hcore
      cases hn' : RTHeap.nodeAt h' i with
      | none => rw [hn'] at hcore; simp at hcore
      | some nd' =>
        have hv' : nd'.is_visible = false := by
          unfold RTHeap.visible_at at hv
          rw [hn'] at hv
          exact hv
        rw [RTHeap.nodeAt_sweep, hn']
        simp only [RTHeap.sweep_node]
        rw [if_neg (by simp [hv'])]

/-- C5 (witness): a two-slot heap of leaves; slot 0 is the only root:
after mark and sweep, slot 0 survives with its stamp and slot 1 is
freed (its unreachability discharged through the leaf inversion of
`Reach`). -/
theorem rt_gc_soundness_witness :
    (∃ node : RTHeap.Node,
      RTHeap.nodeAt (RTHeap.sweep ⟨[some ⟨.id, 0, true⟩, some ⟨.id, 0, false⟩], 0⟩) 0
        = some node ∧ node.generation = 0 ∧ node.object = .id) ∧
    RTHeap.nodeAt (RTHeap.sweep ⟨[some ⟨.id, 0, true⟩, some ⟨.id, 0, false⟩], 0⟩) 1
      = none := by
  have H := rt_gc_soundness ⟨[some ⟨.id, 0, false⟩, some ⟨.id, 0, false⟩], 0⟩
    [⟨0, 0⟩] 1 ⟨[some ⟨.id, 0, true⟩, some ⟨.id, 0, false⟩], 0⟩ rfl rfl
  refine ⟨?_, ?_⟩
  · exact H.1 ⟨0, 0⟩ (by simp) ⟨0, 0⟩ .id (.refl _) rfl
  · refine H.2 1 rfl ?_
    intro r hr p hpi hreach
    have hre : r = ⟨0, 0⟩ := by simpa using hr
    subst hre
    have hp := RTHeap.reach_of_leaf
      (show RTHeap.object_at ⟨[some ⟨.id, 0, false⟩, some ⟨.id, 0, false⟩], 0⟩ ⟨0, 0⟩
        = some .id from rfl) hreach
    subst hp
    simp at hpi

/-- C8 (counterexample): not every non-primitive token becomes a
`Symbol` node — a single lowercase letter outside `a`–`h` is a `Syntax`
error, and a parenthesized word becomes a `Hint` (annotation) node. -/
theorem rt_parse_counterexample :
    RT.parse "z" = .error .synError ∧
    RT.parse "(x)" = .ok (.sequence (.hint "x") .id) := by
  exact ⟨rfl, rfl⟩

/-- C8 (amended): the parser tokenizes whitespace-separated source;
`[`/`]` must balance (unbalanced ⇒ `Syntax`); the tokens `a`–`h` become
the corresponding `Primitive` nodes; a token of shape `(word)` becomes
a `Hint` node; any OTHER single lowercase letter is a `Syntax` error;
every remaining token becomes a `Symbol` node; empty input yields
`Empty`. -/
theorem rt_parse_amended :
    (∀ w : String,
      w ≠ "[" → w ≠ "]" → w ≠ "a" → w ≠ "b" → w ≠ "c" → w ≠ "d" → w ≠ "e" →
      w ≠ "f" → w ≠ "g" → w ≠ "h" →
      (w.length = 1 && w.toList.all Char.isLower) = false →
      RT.hint_name w = none →
      RT.parse_tokens [w] = .ok (.sequence (.word w) .id)) ∧
    (∀ w name : String,
      w ≠ "[" → w ≠ "]" → w ≠ "a" → w ≠ "b" → w ≠ "c" → w ≠ "d" → w ≠ "e" →
      w ≠ "f" → w ≠ "g" → w ≠ "h" →
      (w.length = 1 && w.toList.all Char.isLower) = false →
      RT.hint_name w = some name →
      RT.parse_tokens [w] = .ok (.sequence (.hint name) .id)) ∧
    (∀ w : String,
      w ≠ "[" → w ≠ "]" → w ≠ "a" → w ≠ "b" → w ≠ "c" → w ≠ "d" → w ≠ "e" →
      w ≠ "f" → w ≠ "g" → w ≠ "h" →
      (w.length = 1 && w.toList.all Char.isLower) = true →
      RT.parse_tokens [w] = .error .synError) ∧
    RT.parse "" = .ok .id ∧
    RT.parse "a" = .ok (.sequence (.opcode .app) .id) ∧
    RT.parse "b" = .ok (.sequence (.opcode .box) .id) ∧
    RT.parse "c" = .ok (.sequence (.opcode .cat) .id) ∧
    RT.parse "d" = .ok (.sequence (.opcode .copy) .id) ∧
    RT.parse "e" = .ok (.sequence (.opcode .drop) .id) ∧
    RT.parse "f" = .ok (.sequence (.opcode .swap) .id) ∧
    RT.parse "g" = .ok (.sequence (.opcode .forAll) .id) ∧
    RT.parse "h" = .ok (.sequence (.opcode .prop) .id) ∧
    RT.parse "[" = .error .synError ∧
    RT.parse "]" = .error .synError ∧
    RT.parse "[ a ]" = .ok (.sequence (.block (.sequence (.opcode .app) .id)) .id) := by
  refine ⟨?_, ?_, ?_, rfl, rfl, rfl, rfl, rfl, rfl, rfl, rfl, rfl, rfl, rfl, rfl⟩
  · intro w h1 h2 h3 h4 h5 h6 h7 h8 h9 h10 hlen hhint
    simp only [RT.parse_tokens, List.foldlM, RT.parse_token, if_neg h1, if_neg h2,
      if_neg h3, if_neg h4, if_neg h5, if_neg h6, if_neg h7, if_neg h8, if_neg h9,
      if_neg h10, hlen, hhint]
    rfl
  · intro w name h1 h2 h3 h4 h5 h6 h7 h8 h9 h10 hlen hhint
    simp only [RT.parse_tokens, List.foldlM, RT.parse_token, if_neg h1, if_neg h2,
      if_neg h3, if_neg h4, if_neg h5, if_neg h6, if_neg h7, if_neg h8, if_neg h9,
      if_neg h10, hlen, hhint]
    rfl
  · intro w h1 h2 h3 h4 h5 h6 h7 h8 h9 h10 hlen
    simp only [RT.parse_tokens, List.foldlM, RT.parse_token, if_neg h1, if_neg h2,
      if_neg h3, if_neg h4, if_neg h5, if_neg h6, if_neg h7, if_neg h8, if_neg h9,
      if_neg h10, hlen]
    rfl

/-- C8 (witness): the general `Symbol` rule of the amended parser claim
applied to the token `foo`. -/
theorem rt_parse_amended_witness :
    RT.parse_tokens ["foo"] = .ok (.sequence (.word "foo") .id) :=
  rt_parse_amended.1 "foo" (by decide) (by decide) (by decide) (by decide) (by decide)
    (by decide) (by decide) (by decide) (by decide) (by decide) (by decide) (by decide)

/-- C9: executing `Fix` with at least one value on the data stack pops
the quotation `Q` (topmost) and pushes a quotation whose body is
`Concatenation(Concatenation(Q, Fix-instruction), Q.body)` — exactly
the `is_fix` branch of `reduce` in `src/reduce.rs` (the `new_sequence`
of `src/heap.rs` is the raw constructor, so the body is literally this
left-nested shape). -/
theorem eq_fix_rule (code data kill : List EqCore.Object) (B : EqCore.Object) :
    EqCore.step_eq (.function .fix :: code) (data ++ [.block B]) kill
      = .ok (code,
          data ++ [.block (.sequence (.sequence (.block B) (.function .fix)) B)],
          kill) := by
  simp [EqCore.step_eq, EqCore.fetch, EqCore.fetch_head, EqCore.is_number,
    EqCore.is_block, EqCore.is_apply, EqCore.is_bind, EqCore.is_copy, EqCore.is_drop,
    EqCore.is_fix, EqCore.get_block_body, List.getLast?_concat, List.dropLast_concat]

